import Mathlib

/-!
Verification of the guess-scoring engine of the `resonate` song-guessing game
(`src/pages/Game.tsx`): title normalization, Levenshtein distance with a
rolling row, the similarity ratio, and the guess-submission state update.

Strings are modelled as `List Char`; JavaScript numbers holding integer
counts are modelled as `Nat`/`Int`, and the similarity ratio as `ℚ`
(the source divides two small integers).
-/

namespace Resonate

/-- The character class of JavaScript's regex `\s` (and of `String.prototype.trim`):
space, tab, line feed, vertical tab, form feed, carriage return, NBSP, Ogham space
mark, the U+2000–U+200A range, line/paragraph separators, narrow NBSP, medium
mathematical space, ideographic space, and the BOM. -/
def isJsWhitespace (c : Char) : Bool :=
  c = ' ' || c = '\t' || c = '\n' || c.toNat = 11 || c.toNat = 12 || c = '\r' ||
  c.toNat = 0xa0 || c.toNat = 0x1680 ||
  (0x2000 ≤ c.toNat && c.toNat ≤ 0x200a) ||
  c.toNat = 0x2028 || c.toNat = 0x2029 || c.toNat = 0x202f || c.toNat = 0x205f ||
  c.toNat = 0x3000 || c.toNat = 0xfeff

/-- The character class kept by `.replace(/[^a-z0-9\s]/g, "")`:
lowercase ASCII letters, ASCII digits, and regex whitespace. -/
def keepChar (c : Char) : Bool :=
  ('a' ≤ c && c ≤ 'z') || ('0' ≤ c && c ≤ '9') || isJsWhitespace c

/-- Drop characters up to and including the first occurrence of `c`;
`none` when `c` does not occur. -/
def dropThroughFirst (c : Char) : List Char → Option (List Char)
  | [] => none
  | x :: xs => if x = c then some xs else dropThroughFirst c xs

theorem dropThroughFirst_length {c : Char} :
    ∀ {xs ys : List Char}, dropThroughFirst c xs = some ys →
      ys.length < xs.length := by
  intro xs
  induction xs with
  | nil => intro ys h; simp [dropThroughFirst] at h
  | cons x xs ih =>
    intro ys h
    simp only [dropThroughFirst] at h
    by_cases hx : x = c
    · simp [hx] at h
      subst h
      simp
    · simp [hx] at h
      exact Nat.lt_trans (ih h) (by simp)

/-- Fuel-indexed worker for `stripBrackets`; the fuel only serves structural
recursion and is irrelevant once it is at least the list length
(`stripBracketsF_congr`). -/
def stripBracketsF : Nat → List Char → List Char
  | 0, l => l
  | _ + 1, [] => []
  | fuel + 1, c :: rest =>
    if c = '(' then
      match dropThroughFirst ')' rest with
      | some after => stripBracketsF fuel after
      | none => c :: stripBracketsF fuel rest
    else if c = '[' then
      match dropThroughFirst ']' rest with
      | some after => stripBracketsF fuel after
      | none => c :: stripBracketsF fuel rest
    else
      c :: stripBracketsF fuel rest

/-- `.replace(/\([^)]*\)|\[[^\]]*\]/g, "")`: scanning left to right, each `(`
that has a later `)` is deleted together with everything up to and including
the first such `)`; likewise `[` with the first later `]`; every other
character (including an unclosed `(` or `[`) is kept. -/
def stripBrackets (l : List Char) : List Char := stripBracketsF l.length l

/-- `.replace(/\s+/g, " ")`: each maximal run of whitespace becomes one space
(emitted when the run ends). -/
def collapseWs : List Char → List Char
  | [] => []
  | [c] => if isJsWhitespace c then [' '] else [c]
  | c :: d :: rest =>
    if isJsWhitespace c then
      if isJsWhitespace d then collapseWs (d :: rest)
      else ' ' :: collapseWs (d :: rest)
    else c :: collapseWs (d :: rest)

/-- `.trim()`: remove leading and trailing whitespace. -/
def trimWs (l : List Char) : List Char :=
  ((l.dropWhile isJsWhitespace).reverse.dropWhile isJsWhitespace).reverse

/-- `normalizeTitle` from `Game.tsx`: lowercase, strip `(...)` and `[...]`
groups, drop everything but lowercase alphanumerics and whitespace, collapse
whitespace runs to single spaces, and trim. -/
def normalizeTitle (s : List Char) : List Char :=
  trimWs (collapseWs (List.filter keepChar (stripBrackets (s.map Char.toLower))))

/-- The inner `for (let j = 1; j <= n; j++)` loop of `levenshteinDistance`:
`c` is the current character of `a`, the first list the remaining characters
of `b`, `diag` the previous row's entry at `j-1` (the variable `prev`),
`left` the new row's entry at `j-1`, and the last list the previous row's
entries from `j` on. -/
def levInner (c : Char) : List Char → Nat → Nat → List Nat → List Nat
  | [], _, _, _ => []
  | _ :: _, _, _, [] => []
  | y :: ys, diag, left, o :: os =>
    let v := if c = y then diag else min (diag + 1) (min (o + 1) (left + 1))
    v :: levInner c ys o v os

/-- The outer `for (let i = 1; i <= m; i++)` loop of `levenshteinDistance`:
fold over the characters of `a`, carrying the row index `i` and the rolling
row `dp` (the new row's entry 0 is set to `i`, and `prev` starts as the old
`dp[0]`). -/
def levLoop (b : List Char) : List Char → Nat → List Nat → List Nat
  | [], _, dp => dp
  | c :: cs, i, dp => levLoop b cs (i + 1) (i :: levInner c b (dp.headD 0) i dp.tail)

/-- `levenshteinDistance` from `Game.tsx`: early returns for an empty side,
then the rolling-row dynamic program seeded with `dp = [0, 1, ..., n]`,
returning `dp[n]`. -/
def levenshteinDistance (a b : List Char) : Nat :=
  let m := a.length
  let n := b.length
  if m = 0 then n
  else if n = 0 then m
  else (levLoop b a 1 (List.range (n + 1))).getD n 0

/-- The classic full dynamic-programming table of the spec: base cases
`distance(i,0) = i` and `distance(0,j) = j`, and transition
`distance(i,j) = distance(i-1,j-1)` when `a[i-1] = b[j-1]`, else
`1 + min(distance(i-1,j), distance(i,j-1), distance(i-1,j-1))`. -/
def distTable (a b : List Char) : Nat → Nat → Nat
  | i, 0 => i
  | 0, j + 1 => j + 1
  | i + 1, j + 1 =>
    if a[i]? = b[j]? then distTable a b i j
    else 1 + min (distTable a b i (j + 1)) (min (distTable a b (i + 1) j) (distTable a b i j))
termination_by i j => (i, j)

/-- Reference recursive Levenshtein distance, peeling characters from the
front; used to relate `distTable` to standard structural inductions. -/
def levRec : List Char → List Char → Nat
  | [], ys => ys.length
  | xs, [] => xs.length
  | x :: xs, y :: ys =>
    if x = y then levRec xs ys
    else 1 + min (levRec xs ys) (min (levRec (x :: xs) ys) (levRec xs (y :: ys)))
termination_by xs ys => xs.length + ys.length

/-- `similarity` from `Game.tsx`: normalize both inputs, return 1 when both
normalized forms are empty, else `1 - dist / (max(len a, len b) || 1)`. -/
def similarity (aRaw bRaw : List Char) : ℚ :=
  let a := normalizeTitle aRaw
  let b := normalizeTitle bRaw
  if a.length = 0 ∧ b.length = 0 then 1
  else
    let dist := levenshteinDistance a b
    let maxLen := if max a.length b.length = 0 then 1 else max a.length b.length
    1 - (dist : ℚ) / (maxLen : ℚ)

/-- The caller-side verdict of §6 of the spec: `similarity >= 0.7`,
exactly the branch condition of `handleGuessSubmit`. -/
def judgeGuess (rawGuess rawTarget : List Char) : Bool :=
  decide ((7 / 10 : ℚ) ≤ similarity rawGuess rawTarget)

/-- The `result` state of a round: `"idle" | "correct" | "wrong"`. -/
inductive GuessResult where
  | idle
  | correct
  | wrong
deriving DecidableEq

/-- The round state touched by `handleGuessSubmit`. -/
structure GameState where
  triesLeft : Int
  revealed : Bool
  result : GuessResult
  correctCount : Nat
  wrongCount : Nat
deriving DecidableEq

/-- `handleGuessSubmit` from `Game.tsx`, as a step function on the round
state: compare `similarity(guess, currentTrack.name)` against 0.7; on
success mark correct, reveal, and bump `correctCount`; on failure decrement
`triesLeft`, mark wrong, and when the decremented count is `<= 0` reveal and
bump `wrongCount`. -/
def handleGuessSubmit (guess trackName : List Char) (s : GameState) : GameState :=
  if (7 / 10 : ℚ) ≤ similarity guess trackName then
    { s with result := .correct, revealed := true,
             correctCount := s.correctCount + 1 }
  else
    let remaining := s.triesLeft - 1
    if remaining ≤ 0 then
      { s with triesLeft := remaining, result := .wrong, revealed := true,
               wrongCount := s.wrongCount + 1 }
    else
      { s with triesLeft := remaining, result := .wrong }

/-- The initial round state of `Game`: `triesLeft = 3`, nothing revealed,
`result = "idle"`, both counters 0 (the `useState` initial values). -/
def initialRoundState : GameState :=
  { triesLeft := 3, revealed := false, result := .idle,
    correctCount := 0, wrongCount := 0 }

/-- Frame/effect specification of one `handleGuessSubmit` call: a correct
verdict only bumps `correctCount` (plus `result`/`revealed`), a wrong verdict
decrements `triesLeft`, leaves `correctCount` alone, and bumps `wrongCount`
and reveals exactly when the decremented `triesLeft` reaches zero. -/
def GuessStepSpec (guess trackName : List Char) (s : GameState) : Prop :=
  ((7 / 10 : ℚ) ≤ similarity guess trackName →
    (handleGuessSubmit guess trackName s).triesLeft = s.triesLeft ∧
    (handleGuessSubmit guess trackName s).wrongCount = s.wrongCount ∧
    (handleGuessSubmit guess trackName s).correctCount = s.correctCount + 1) ∧
  (¬(7 / 10 : ℚ) ≤ similarity guess trackName →
    (handleGuessSubmit guess trackName s).triesLeft = s.triesLeft - 1 ∧
    (handleGuessSubmit guess trackName s).correctCount = s.correctCount ∧
    ((handleGuessSubmit guess trackName s).wrongCount = s.wrongCount + 1 ↔
      s.triesLeft - 1 = 0) ∧
    (s.triesLeft - 1 = 0 → (handleGuessSubmit guess trackName s).revealed = true) ∧
    (s.triesLeft - 1 ≠ 0 →
      (handleGuessSubmit guess trackName s).wrongCount = s.wrongCount ∧
      (handleGuessSubmit guess trackName s).revealed = s.revealed))

end Resonate
namespace Resonate

theorem levRec_nil_left (ys : List Char) : levRec [] ys = ys.length := by
  simp [levRec]

theorem levRec_nil_right (xs : List Char) : levRec xs [] = xs.length := by
  cases xs <;> simp [levRec]

theorem levRec_cons_cons (x y : Char) (xs ys : List Char) :
    levRec (x :: xs) (y :: ys) =
      if x = y then levRec xs ys
      else 1 + min (levRec xs ys) (min (levRec (x :: xs) ys) (levRec xs (y :: ys))) := by
  simp [levRec]

theorem levRec_symm (xs ys : List Char) : levRec xs ys = levRec ys xs := by
  induction xs, ys using levRec.induct with
  | case1 ys => rw [levRec_nil_left, levRec_nil_right]
  | case2 xs h => rw [levRec_nil_left, levRec_nil_right]
  | case3 xs y ys ih => rw [levRec_cons_cons, levRec_cons_cons, if_pos rfl, if_pos rfl, ih]
  | case4 x xs y ys hxy ih1 ih2 ih3 =>
    rw [levRec_cons_cons, levRec_cons_cons,
      if_neg hxy, if_neg (fun h => hxy h.symm), ih1, ih2, ih3]
    omega

theorem levRec_le_max (xs ys : List Char) :
    levRec xs ys ≤ max xs.length ys.length := by
  induction xs, ys using levRec.induct with
  | case1 ys => simp [levRec_nil_left]
  | case2 xs h => simp [levRec_nil_right]
  | case3 xs y ys ih =>
    rw [levRec_cons_cons, if_pos rfl]
    simp only [List.length_cons]
    omega
  | case4 x xs y ys hxy ih1 ih2 ih3 =>
    rw [levRec_cons_cons, if_neg hxy]
    simp only [List.length_cons] at *
    omega

theorem levRec_eq_zero_iff (xs ys : List Char) :
    levRec xs ys = 0 ↔ xs = ys := by
  induction xs, ys using levRec.induct with
  | case1 ys => simp [levRec_nil_left, eq_comm, List.length_eq_zero]
  | case2 xs h =>
    rw [levRec_nil_right]
    constructor
    · intro hl; exact absurd (List.length_eq_zero.mp hl) (fun he => h he)
    · intro hl; subst hl; rfl
  | case3 xs y ys ih =>
    rw [levRec_cons_cons, if_pos rfl]
    simp [ih]
  | case4 x xs y ys hxy ih1 ih2 ih3 =>
    rw [levRec_cons_cons, if_neg hxy]
    constructor
    · omega
    · intro he
      cases he
      exact absurd rfl hxy

theorem levRec_self (xs : List Char) : levRec xs xs = 0 :=
  (levRec_eq_zero_iff xs xs).mpr rfl

end Resonate
namespace Resonate

theorem distTable_zero_right (a b : List Char) (i : Nat) : distTable a b i 0 = i := by
  cases i <;> simp [distTable]

theorem distTable_zero_left (a b : List Char) (j : Nat) : distTable a b 0 j = j := by
  cases j <;> simp [distTable]

theorem distTable_succ_succ (a b : List Char) (i j : Nat) :
    distTable a b (i + 1) (j + 1) =
      if a[i]? = b[j]? then distTable a b i j
      else 1 + min (distTable a b i (j + 1))
        (min (distTable a b (i + 1) j) (distTable a b i j)) := by
  rw [distTable]

theorem distTable_eq_levRec (a b : List Char) :
    ∀ i j, i ≤ a.length → j ≤ b.length →
      distTable a b i j = levRec ((a.take i).reverse) ((b.take j).reverse) := by
  intro i
  induction i with
  | zero =>
    intro j hi hj
    rw [distTable_zero_left]
    simp only [List.take_zero, List.reverse_nil, levRec_nil_left,
      List.length_reverse, List.length_take]
    omega
  | succ i ih =>
    intro j
    induction j with
    | zero =>
      intro hi hj
      rw [distTable_zero_right]
      simp only [List.take_zero, List.reverse_nil, levRec_nil_right,
        List.length_reverse, List.length_take]
      omega
    | succ j ihj =>
      intro hi hj
      have hia : i < a.length := by omega
      have hjb : j < b.length := by omega
      have hta : (a.take (i + 1)).reverse = a[i] :: (a.take i).reverse := by
        rw [List.take_succ, List.getElem?_eq_getElem hia]
        simp
      have htb : (b.take (j + 1)).reverse = b[j] :: (b.take j).reverse := by
        rw [List.take_succ, List.getElem?_eq_getElem hjb]
        simp
      rw [distTable_succ_succ, hta, htb, levRec_cons_cons,
        List.getElem?_eq_getElem hia, List.getElem?_eq_getElem hjb]
      by_cases hc : a[i] = b[j]
      · rw [if_pos (by rw [hc]), if_pos hc]
        exact ih j (by omega) (by omega)
      · rw [if_neg (by simpa using hc), if_neg hc]
        have e1 := ih (j + 1) (by omega) hj
        have e2 := ihj hi (by omega)
        have e3 := ih j (by omega) (by omega)
        rw [htb] at e1
        rw [hta] at e2
        rw [e1, e2, e3]
        omega

end Resonate
namespace Resonate

theorem levInner_spec (a b : List Char) (i : Nat) (c : Char) (hc : a[i]? = some c) :
    ∀ (ys : List Char) (j0 : Nat), b.drop j0 = ys →
      levInner c ys (distTable a b i j0) (distTable a b (i + 1) j0)
          ((List.range' (j0 + 1) ys.length).map (distTable a b i)) =
        (List.range' (j0 + 1) ys.length).map (distTable a b (i + 1)) := by
  intro ys
  induction ys with
  | nil => intro j0 _; simp [levInner]
  | cons y ys ih =>
    intro j0 hd
    have hbj : b[j0]? = some y := by
      have h0 := List.getElem?_drop b j0 0
      rw [hd] at h0
      simpa using h0.symm
    have hd' : b.drop (j0 + 1) = ys := by
      have h1 : b.drop (j0 + 1) = (b.drop j0).drop 1 := (List.drop_drop 1 j0 b).symm
      rw [h1, hd]
      rfl
    rw [List.length_cons, List.range'_succ, List.map_cons, List.map_cons]
    have hv : (if c = y then distTable a b i j0
        else min (distTable a b i j0 + 1)
          (min (distTable a b i (j0 + 1) + 1) (distTable a b (i + 1) j0 + 1))) =
        distTable a b (i + 1) (j0 + 1) := by
      rw [distTable_succ_succ, hc, hbj]
      simp only [Option.some.injEq]
      by_cases hcy : c = y
      · rw [if_pos hcy, if_pos hcy]
      · rw [if_neg hcy, if_neg hcy]
        omega
    show (if c = y then distTable a b i j0
        else min (distTable a b i j0 + 1)
          (min (distTable a b i (j0 + 1) + 1) (distTable a b (i + 1) j0 + 1))) ::
        levInner c ys (distTable a b i (j0 + 1)) _ _ = _
    rw [hv]
    have htail := ih (j0 + 1) hd'
    rw [htail]

end Resonate
namespace Resonate

theorem levLoop_spec (a b : List Char) :
    ∀ (as : List Char) (i : Nat), a.drop i = as → i ≤ a.length →
      levLoop b as (i + 1) ((List.range (b.length + 1)).map (distTable a b i)) =
        (List.range (b.length + 1)).map (distTable a b a.length) := by
  intro as
  induction as with
  | nil =>
    intro i hd hi
    obtain rfl : i = a.length := le_antisymm hi (List.drop_eq_nil_iff.mp hd)
    rw [levLoop]
  | cons c as ih =>
    intro i hd hi
    have hai : a[i]? = some c := by
      have h0 := List.getElem?_drop a i 0
      rw [hd] at h0
      simpa using h0.symm
    have hd' : a.drop (i + 1) = as := by
      have h1 : a.drop (i + 1) = (a.drop i).drop 1 := (List.drop_drop 1 i a).symm
      rw [h1, hd]
      rfl
    have hi' : i + 1 ≤ a.length := by
      by_contra hcon
      rw [List.getElem?_eq_none (by omega)] at hai
      exact Option.noConfusion hai
    have hrange : List.range (b.length + 1) = 0 :: List.range' 1 b.length := by
      rw [List.range_eq_range', List.range'_succ]
    rw [levLoop, hrange, List.map_cons, List.headD_cons, List.tail_cons]
    have hrow := levInner_spec a b i c hai b 0 (List.drop_zero b)
    rw [distTable_zero_right, distTable_zero_right] at hrow
    rw [Nat.zero_add] at hrow
    rw [distTable_zero_right, hrow]
    have hnew : (i + 1) :: List.map (distTable a b (i + 1)) (List.range' 1 b.length) =
        (List.range (b.length + 1)).map (distTable a b (i + 1)) := by
      rw [hrange, List.map_cons, distTable_zero_right]
    rw [hnew, ← hrange]
    exact ih (i + 1) hd' hi'

end Resonate
namespace Resonate

theorem levenshteinDistance_eq_distTable_full (a b : List Char) :
    levenshteinDistance a b = distTable a b a.length b.length := by
  unfold levenshteinDistance
  by_cases hm : a.length = 0
  · rw [if_pos hm, hm, distTable_zero_left]
  · by_cases hn : b.length = 0
    · rw [if_neg hm, if_pos hn, hn, distTable_zero_right]
    · rw [if_neg hm, if_neg hn]
      have h0 : (List.range (b.length + 1)).map (distTable a b 0) =
          List.range (b.length + 1) := by
        rw [List.map_congr_left fun x _ => distTable_zero_left a b x]
        exact List.map_id _
      have hL := levLoop_spec a b a 0 (List.drop_zero a) (Nat.zero_le _)
      rw [h0, Nat.zero_add] at hL
      rw [hL, List.getD_eq_getElem?_getD, List.getElem?_map,
        List.getElem?_range (by omega)]
      rfl

theorem levenshteinDistance_eq_levRec_reverse (a b : List Char) :
    levenshteinDistance a b = levRec a.reverse b.reverse := by
  rw [levenshteinDistance_eq_distTable_full,
    distTable_eq_levRec a b a.length b.length le_rfl le_rfl,
    List.take_length, List.take_length]

theorem levenshteinDistance_comm (a b : List Char) :
    levenshteinDistance a b = levenshteinDistance b a := by
  rw [levenshteinDistance_eq_levRec_reverse, levenshteinDistance_eq_levRec_reverse,
    levRec_symm]

theorem levenshteinDistance_le_max (a b : List Char) :
    levenshteinDistance a b ≤ max a.length b.length := by
  rw [levenshteinDistance_eq_levRec_reverse]
  simpa using levRec_le_max a.reverse b.reverse

theorem levenshteinDistance_eq_zero_iff (a b : List Char) :
    levenshteinDistance a b = 0 ↔ a = b := by
  rw [levenshteinDistance_eq_levRec_reverse, levRec_eq_zero_iff, List.reverse_inj]

theorem levenshteinDistance_self (a : List Char) : levenshteinDistance a a = 0 :=
  (levenshteinDistance_eq_zero_iff a a).mpr rfl

theorem levenshteinDistance_nil_left (b : List Char) :
    levenshteinDistance [] b = b.length := by
  rw [levenshteinDistance_eq_levRec_reverse, List.reverse_nil, levRec_nil_left,
    List.length_reverse]

theorem levenshteinDistance_nil_right (a : List Char) :
    levenshteinDistance a [] = a.length := by
  rw [levenshteinDistance_eq_levRec_reverse, List.reverse_nil, levRec_nil_right,
    List.length_reverse]

end Resonate
namespace Resonate

theorem similarity_both_empty (a b : List Char)
    (h : normalizeTitle a = [] ∧ normalizeTitle b = []) : similarity a b = 1 := by
  unfold similarity
  rw [if_pos ⟨by rw [h.1]; rfl, by rw [h.2]; rfl⟩]

theorem max_len_ne_zero {a b : List Char}
    (h : ¬(normalizeTitle a = [] ∧ normalizeTitle b = [])) :
    max (normalizeTitle a).length (normalizeTitle b).length ≠ 0 := by
  intro hc
  simp only [Nat.max_eq_zero_iff, List.length_eq_zero] at hc
  exact h hc

theorem similarity_eq (a b : List Char)
    (h : ¬(normalizeTitle a = [] ∧ normalizeTitle b = [])) :
    similarity a b =
      1 - (levenshteinDistance (normalizeTitle a) (normalizeTitle b) : ℚ) /
        (max ((normalizeTitle a).length : ℚ) ((normalizeTitle b).length : ℚ)) := by
  simp only [similarity]
  rw [if_neg (by
    intro hc
    exact h ⟨List.length_eq_zero.mp hc.1, List.length_eq_zero.mp hc.2⟩)]
  rw [if_neg (max_len_ne_zero h), Nat.cast_max]

theorem max_len_pos {a b : List Char}
    (h : ¬(normalizeTitle a = [] ∧ normalizeTitle b = [])) :
    (0 : ℚ) < max ((normalizeTitle a).length : ℚ) ((normalizeTitle b).length : ℚ) := by
  have h0 : 0 < max (normalizeTitle a).length (normalizeTitle b).length :=
    Nat.pos_of_ne_zero (max_len_ne_zero h)
  exact_mod_cast h0

theorem dist_le_max_cast (a b : List Char) :
    (levenshteinDistance (normalizeTitle a) (normalizeTitle b) : ℚ) ≤
      max ((normalizeTitle a).length : ℚ) ((normalizeTitle b).length : ℚ) := by
  exact_mod_cast levenshteinDistance_le_max (normalizeTitle a) (normalizeTitle b)

theorem similarity_eq_one_iff (a b : List Char) :
    similarity a b = 1 ↔ normalizeTitle a = normalizeTitle b := by
  by_cases h : normalizeTitle a = [] ∧ normalizeTitle b = []
  · rw [similarity_both_empty a b h, h.1, h.2]
    simp
  · rw [similarity_eq a b h]
    constructor
    · intro he
      have hdiv : (levenshteinDistance (normalizeTitle a) (normalizeTitle b) : ℚ) /
          max ((normalizeTitle a).length : ℚ) ((normalizeTitle b).length : ℚ) = 0 := by
        linarith
      rw [div_eq_zero_iff] at hdiv
      rcases hdiv with hd0 | hc
      · exact (levenshteinDistance_eq_zero_iff _ _).mp (by exact_mod_cast hd0)
      · exact absurd hc (ne_of_gt (max_len_pos h))
    · intro he
      rw [he, levenshteinDistance_self]
      simp

theorem similarity_nonneg (a b : List Char) : 0 ≤ similarity a b := by
  by_cases h : normalizeTitle a = [] ∧ normalizeTitle b = []
  · rw [similarity_both_empty a b h]; norm_num
  · rw [similarity_eq a b h]
    have h1 := (div_le_one (max_len_pos h)).mpr (dist_le_max_cast a b)
    linarith

theorem similarity_le_one (a b : List Char) : similarity a b ≤ 1 := by
  by_cases h : normalizeTitle a = [] ∧ normalizeTitle b = []
  · rw [similarity_both_empty a b h]
  · rw [similarity_eq a b h]
    have hd : (0 : ℚ) ≤ (levenshteinDistance (normalizeTitle a) (normalizeTitle b) : ℚ) := by
      exact_mod_cast Nat.zero_le _
    have h1 := div_nonneg hd (le_of_lt (max_len_pos h))
    linarith

theorem similarity_left_empty (a b : List Char) (h1 : normalizeTitle a = [])
    (h2 : normalizeTitle b ≠ []) : similarity a b = 0 := by
  rw [similarity_eq a b (fun hc => h2 hc.2), h1, levenshteinDistance_nil_left]
  have hl : (0 : ℚ) < ((normalizeTitle b).length : ℚ) := by
    exact_mod_cast List.length_pos.mpr h2
  rw [List.length_nil]
  simp only [Nat.cast_zero]
  rw [max_eq_right (le_of_lt hl)]
  rw [div_self (ne_of_gt hl)]
  norm_num

theorem similarity_comm (a b : List Char) : similarity a b = similarity b a := by
  by_cases h : normalizeTitle a = [] ∧ normalizeTitle b = []
  · rw [similarity_both_empty a b h, similarity_both_empty b a ⟨h.2, h.1⟩]
  · rw [similarity_eq a b h, similarity_eq b a (fun hc => h ⟨hc.2, hc.1⟩),
      levenshteinDistance_comm, max_comm]

theorem similarity_empty_vs_nonempty :
    similarity ("".toList) ("Stay".toList) = 0 ∧
    ∀ a b : List Char,
      ((normalizeTitle a = [] ∧ normalizeTitle b ≠ []) ∨
        (normalizeTitle a ≠ [] ∧ normalizeTitle b = [])) →
      similarity a b = 0 ∧ judgeGuess a b = false := by
  have hgen : ∀ a b : List Char,
      ((normalizeTitle a = [] ∧ normalizeTitle b ≠ []) ∨
        (normalizeTitle a ≠ [] ∧ normalizeTitle b = [])) →
      similarity a b = 0 ∧ judgeGuess a b = false := by
    intro a b hab
    have hs : similarity a b = 0 := by
      rcases hab with ⟨h1, h2⟩ | ⟨h1, h2⟩
      · exact similarity_left_empty a b h1 h2
      · rw [similarity_comm]
        exact similarity_left_empty b a h2 h1
    refine ⟨hs, ?_⟩
    simp only [judgeGuess, hs, decide_eq_false_iff_not]
    norm_num
  refine ⟨?_, hgen⟩
  exact (hgen _ _ (Or.inl ⟨by decide, by decide⟩)).1

end Resonate
namespace Resonate

/-- C1: `similarity` returns 1 exactly when both normalized forms are empty,
otherwise `1 - dist / max(len a, len b)`; the result lies in `[0, 1]` and is 1
iff the normalized forms coincide. -/
theorem similarity_contract (a b : List Char) :
    similarity a b =
      (if normalizeTitle a = [] ∧ normalizeTitle b = [] then 1 else
        1 - (levenshteinDistance (normalizeTitle a) (normalizeTitle b) : ℚ) /
          (max ((normalizeTitle a).length : ℚ) ((normalizeTitle b).length : ℚ))) ∧
    0 ≤ similarity a b ∧ similarity a b ≤ 1 ∧
    (similarity a b = 1 ↔ normalizeTitle a = normalizeTitle b) := by
  refine ⟨?_, similarity_nonneg a b, similarity_le_one a b, similarity_eq_one_iff a b⟩
  by_cases h : normalizeTitle a = [] ∧ normalizeTitle b = []
  · rw [if_pos h, similarity_both_empty a b h]
  · rw [if_neg h, similarity_eq a b h]

/-- C6: `similarity` is symmetric in its two arguments. -/
theorem similarity_symm (a b : List Char) : similarity a b = similarity b a :=
  similarity_comm a b

/-- C7: any string has similarity exactly 1 with itself. -/
theorem similarity_identity (s : List Char) : similarity s s = 1 :=
  (similarity_eq_one_iff s s).mpr rfl

end Resonate
namespace Resonate

theorem handleGuessSubmit_result_correct_iff (g t : List Char) (s : GameState) :
    (handleGuessSubmit g t s).result = GuessResult.correct ↔
      (7 / 10 : ℚ) ≤ similarity g t := by
  unfold handleGuessSubmit
  by_cases hc : (7 / 10 : ℚ) ≤ similarity g t
  · simp [hc]
  · simp only [if_neg hc]
    by_cases hz : s.triesLeft - 1 ≤ 0 <;> simp [hz, hc]

/-- C2: a guess is judged correct exactly when `similarity >= 0.7`; an edit
distance of 1 against a 10-character normalized title is judged correct, and
a distance above 30% of the longer normalized length is judged wrong. -/
theorem guess_judgement_threshold (g t : List Char) (s : GameState) :
    ((handleGuessSubmit g t s).result = GuessResult.correct ↔
      (7 / 10 : ℚ) ≤ similarity g t) ∧
    (judgeGuess g t = true ↔ (7 / 10 : ℚ) ≤ similarity g t) ∧
    ((normalizeTitle t).length = 10 →
      levenshteinDistance (normalizeTitle g) (normalizeTitle t) = 1 →
      (handleGuessSubmit g t s).result = GuessResult.correct) ∧
    ((3 / 10 : ℚ) * max ((normalizeTitle g).length : ℚ) ((normalizeTitle t).length : ℚ) <
        (levenshteinDistance (normalizeTitle g) (normalizeTitle t) : ℚ) →
      (handleGuessSubmit g t s).result = GuessResult.wrong) := by
  refine ⟨handleGuessSubmit_result_correct_iff g t s, by simp [judgeGuess], ?_, ?_⟩
  · intro hlen hdist
    rw [handleGuessSubmit_result_correct_iff]
    have hne : ¬(normalizeTitle g = [] ∧ normalizeTitle t = []) := by
      rintro ⟨-, h2⟩
      rw [h2] at hlen
      simp at hlen
    rw [similarity_eq g t hne, hdist, hlen]
    have h10 : (10 : ℚ) ≤ max ((normalizeTitle g).length : ℚ) (10 : ℚ) :=
      le_max_right _ _
    have hM : (0 : ℚ) < max ((normalizeTitle g).length : ℚ) (10 : ℚ) := by linarith
    have hdivle : (1 : ℚ) / max ((normalizeTitle g).length : ℚ) (10 : ℚ) ≤ 1 / 10 :=
      one_div_le_one_div_of_le (by norm_num) h10
    push_cast
    linarith
  · intro hgt
    have hne : ¬(normalizeTitle g = [] ∧ normalizeTitle t = []) := by
      rintro ⟨h1, h2⟩
      rw [h1, h2] at hgt
      simp [levenshteinDistance_nil_left] at hgt
    have hM : (0 : ℚ) < max ((normalizeTitle g).length : ℚ) ((normalizeTitle t).length : ℚ) :=
      max_len_pos hne
    have hfrac : (3 / 10 : ℚ) <
        (levenshteinDistance (normalizeTitle g) (normalizeTitle t) : ℚ) /
          max ((normalizeTitle g).length : ℚ) ((normalizeTitle t).length : ℚ) := by
      rw [lt_div_iff₀ hM]
      linarith [hgt]
    have hsim : similarity g t < 7 / 10 := by
      rw [similarity_eq g t hne]
      linarith
    unfold handleGuessSubmit
    rw [if_neg (not_le.mpr hsim)]
    by_cases hz : s.triesLeft - 1 ≤ 0 <;> simp [hz]

/-- The only states in which `Game` accepts a submission are unrevealed
states, and those always have at least one try left: the invariant
`revealed = false → 1 ≤ triesLeft` holds initially (3 tries) and is preserved
by every submission. -/
theorem handleGuessSubmit_tries_invariant (g t : List Char) (s : GameState)
    (h : s.revealed = false → 1 ≤ s.triesLeft) :
    (handleGuessSubmit g t s).revealed = false →
      1 ≤ (handleGuessSubmit g t s).triesLeft := by
  unfold handleGuessSubmit
  by_cases hc : (7 / 10 : ℚ) ≤ similarity g t
  · simp [hc]
  · simp only [if_neg hc]
    by_cases hz : s.triesLeft - 1 ≤ 0
    · simp [hz]
    · intro hr
      simp only [if_neg hz]
      omega

theorem initialRoundState_invariant :
    initialRoundState.revealed = false → 1 ≤ initialRoundState.triesLeft := by
  intro h
  decide

/-- C10: effect of one submission on the round state, for any state with a
try left (the only states in which the game accepts a submission, by
`handleGuessSubmit_tries_invariant`). -/
theorem handleGuessSubmit_step_effects (g t : List Char) (s : GameState)
    (h : 1 ≤ s.triesLeft) : GuessStepSpec g t s := by
  unfold GuessStepSpec
  by_cases hc : (7 / 10 : ℚ) ≤ similarity g t
  · refine ⟨fun _ => ?_, fun hn => absurd hc hn⟩
    simp [handleGuessSubmit, hc]
  · refine ⟨fun hy => absurd hy hc, fun _ => ?_⟩
    by_cases hz : s.triesLeft - 1 = 0
    · have hz' : s.triesLeft - 1 ≤ 0 := by omega
      simp [handleGuessSubmit, hc, hz', hz]
    · have hz' : ¬ s.triesLeft - 1 ≤ 0 := by omega
      simp [handleGuessSubmit, hc, hz', hz]

theorem handleGuessSubmit_step_effects_witness :
    1 ≤ initialRoundState.triesLeft ∧ GuessStepSpec [] ("Stay".toList) initialRoundState :=
  ⟨by decide, handleGuessSubmit_step_effects [] ("Stay".toList) initialRoundState (by decide)⟩

end Resonate
namespace Resonate

theorem guess_judgement_threshold_witness :
    (normalizeTitle ("Levitating".toList)).length = 10 ∧
    levenshteinDistance (normalizeTitle ("levitatin".toList))
      (normalizeTitle ("Levitating".toList)) = 1 ∧
    (handleGuessSubmit ("levitatin".toList) ("Levitating".toList)
      initialRoundState).result = GuessResult.correct :=
  ⟨by decide, by decide,
    (guess_judgement_threshold ("levitatin".toList) ("Levitating".toList)
      initialRoundState).2.2.1 (by decide) (by decide)⟩

/-- C3: the rolling-row implementation computes exactly the classic full
dynamic-programming Levenshtein table at position `(a.length, b.length)`. -/
theorem levenshteinDistance_refines_classic_table (a b : List Char) :
    levenshteinDistance a b = distTable a b a.length b.length :=
  levenshteinDistance_eq_distTable_full a b

theorem similarity_empty_vs_nonempty_witness :
    (normalizeTitle ("!?!".toList) = [] ∧ normalizeTitle ("Stay".toList) ≠ []) ∧
    similarity ("!?!".toList) ("Stay".toList) = 0 ∧
    judgeGuess ("!?!".toList) ("Stay".toList) = false :=
  ⟨⟨by decide, by decide⟩,
    similarity_empty_vs_nonempty.2 ("!?!".toList) ("Stay".toList)
      (Or.inl ⟨by decide, by decide⟩)⟩

end Resonate
namespace Resonate

theorem stripBracketsF_nil (f : Nat) : stripBracketsF f [] = [] := by
  cases f <;> rfl

theorem stripBracketsF_cons_paren (f : Nat) (rest : List Char) :
    stripBracketsF (f + 1) ('(' :: rest) =
      match dropThroughFirst ')' rest with
      | some after => stripBracketsF f after
      | none => '(' :: stripBracketsF f rest := by
  simp [stripBracketsF]

theorem stripBracketsF_cons_bracket (f : Nat) (rest : List Char) :
    stripBracketsF (f + 1) ('[' :: rest) =
      match dropThroughFirst ']' rest with
      | some after => stripBracketsF f after
      | none => '[' :: stripBracketsF f rest := by
  simp [stripBracketsF]

theorem stripBracketsF_cons_other (f : Nat) (c : Char) (rest : List Char)
    (h1 : c ≠ '(') (h2 : c ≠ '[') :
    stripBracketsF (f + 1) (c :: rest) = c :: stripBracketsF f rest := by
  simp [stripBracketsF, h1, h2]

theorem dropThroughFirst_suffix {c : Char} :
    ∀ {xs ys : List Char}, dropThroughFirst c xs = some ys → ys <:+ xs := by
  intro xs
  induction xs with
  | nil => intro ys h; simp [dropThroughFirst] at h
  | cons x xs ih =>
    intro ys h
    simp only [dropThroughFirst] at h
    by_cases hx : x = c
    · simp [hx] at h
      subst h
      exact List.suffix_cons x xs
    · simp [hx] at h
      exact (ih h).trans (List.suffix_cons x xs)

theorem stripBracketsF_congr :
    ∀ (f₁ : Nat) (l : List Char) (f₂ : Nat), l.length ≤ f₁ → l.length ≤ f₂ →
      stripBracketsF f₁ l = stripBracketsF f₂ l := by
  intro f₁
  induction f₁ with
  | zero =>
    intro l f₂ h1 _
    obtain rfl : l = [] := List.length_eq_zero.mp (Nat.le_zero.mp h1)
    rw [stripBracketsF_nil, stripBracketsF_nil]
  | succ f ih =>
    intro l f₂ h1 h2
    cases l with
    | nil => rw [stripBracketsF_nil, stripBracketsF_nil]
    | cons c rest =>
      simp only [List.length_cons] at h1 h2
      cases f₂ with
      | zero => omega
      | succ g =>
        by_cases hp : c = '('
        · subst hp
          rw [stripBracketsF_cons_paren, stripBracketsF_cons_paren]
          cases hdrop : dropThroughFirst ')' rest with
          | some after =>
            have hlt := dropThroughFirst_length hdrop
            exact ih after g (by omega) (by omega)
          | none => rw [ih rest g (by omega) (by omega)]
        · by_cases hb : c = '['
          · subst hb
            rw [stripBracketsF_cons_bracket, stripBracketsF_cons_bracket]
            cases hdrop : dropThroughFirst ']' rest with
            | some after =>
              have hlt := dropThroughFirst_length hdrop
              exact ih after g (by omega) (by omega)
            | none => rw [ih rest g (by omega) (by omega)]
          · rw [stripBracketsF_cons_other f c rest hp hb,
              stripBracketsF_cons_other g c rest hp hb, ih rest g (by omega) (by omega)]

theorem stripBrackets_cons_paren_some {rest after : List Char}
    (h : dropThroughFirst ')' rest = some after) :
    stripBrackets ('(' :: rest) = stripBrackets after := by
  unfold stripBrackets
  rw [List.length_cons, stripBracketsF_cons_paren, h]
  exact stripBracketsF_congr rest.length after after.length
    (by have := dropThroughFirst_length h; omega) le_rfl

theorem stripBrackets_cons_paren_none {rest : List Char}
    (h : dropThroughFirst ')' rest = none) :
    stripBrackets ('(' :: rest) = '(' :: stripBrackets rest := by
  unfold stripBrackets
  rw [List.length_cons, stripBracketsF_cons_paren, h]

theorem stripBrackets_cons_bracket_some {rest after : List Char}
    (h : dropThroughFirst ']' rest = some after) :
    stripBrackets ('[' :: rest) = stripBrackets after := by
  unfold stripBrackets
  rw [List.length_cons, stripBracketsF_cons_bracket, h]
  exact stripBracketsF_congr rest.length after after.length
    (by have := dropThroughFirst_length h; omega) le_rfl

theorem stripBrackets_cons_bracket_none {rest : List Char}
    (h : dropThroughFirst ']' rest = none) :
    stripBrackets ('[' :: rest) = '[' :: stripBrackets rest := by
  unfold stripBrackets
  rw [List.length_cons, stripBracketsF_cons_bracket, h]

theorem stripBrackets_cons_other (c : Char) (rest : List Char)
    (h1 : c ≠ '(') (h2 : c ≠ '[') :
    stripBrackets (c :: rest) = c :: stripBrackets rest := by
  unfold stripBrackets
  rw [List.length_cons, stripBracketsF_cons_other _ c rest h1 h2]

end Resonate
namespace Resonate

theorem dropThroughFirst_eq_none {c : Char} :
    ∀ {xs : List Char}, c ∉ xs → dropThroughFirst c xs = none := by
  intro xs
  induction xs with
  | nil => intro _; rfl
  | cons x xs ih =>
    intro h
    have hx : x ≠ c := fun he => h (he ▸ List.mem_cons_self x xs)
    simp only [dropThroughFirst, if_neg hx]
    exact ih (fun hm => h (List.mem_cons_of_mem x hm))

theorem dropThroughFirst_append {c : Char} :
    ∀ {mid : List Char} (post : List Char), c ∉ mid →
      dropThroughFirst c (mid ++ c :: post) = some post := by
  intro mid
  induction mid with
  | nil => intro post _; simp [dropThroughFirst]
  | cons x mid ih =>
    intro post h
    have hx : x ≠ c := fun he => h (he ▸ List.mem_cons_self x mid)
    simp only [List.cons_append, dropThroughFirst, if_neg hx]
    exact ih post (fun hm => h (List.mem_cons_of_mem x hm))

theorem stripBracketsF_subset :
    ∀ (f : Nat) (l : List Char), ∀ x ∈ stripBracketsF f l, x ∈ l := by
  intro f
  induction f with
  | zero => intro l x hx; exact hx
  | succ f ih =>
    intro l x hx
    cases l with
    | nil => rw [stripBracketsF_nil] at hx; exact absurd hx (List.not_mem_nil x)
    | cons c rest =>
      by_cases hp : c = '('
      · subst hp
        rw [stripBracketsF_cons_paren] at hx
        cases hdrop : dropThroughFirst ')' rest with
        | some after =>
          rw [hdrop] at hx
          exact List.mem_cons_of_mem _
            ((dropThroughFirst_suffix hdrop).subset (ih after x hx))
        | none =>
          rw [hdrop] at hx
          rcases List.mem_cons.mp hx with rfl | hx'
          · exact List.mem_cons_self _ _
          · exact List.mem_cons_of_mem _ (ih rest x hx')
      · by_cases hb : c = '['
        · subst hb
          rw [stripBracketsF_cons_bracket] at hx
          cases hdrop : dropThroughFirst ']' rest with
          | some after =>
            rw [hdrop] at hx
            exact List.mem_cons_of_mem _
              ((dropThroughFirst_suffix hdrop).subset (ih after x hx))
          | none =>
            rw [hdrop] at hx
            rcases List.mem_cons.mp hx with rfl | hx'
            · exact List.mem_cons_self _ _
            · exact List.mem_cons_of_mem _ (ih rest x hx')
        · rw [stripBracketsF_cons_other f c rest hp hb] at hx
          rcases List.mem_cons.mp hx with rfl | hx'
          · exact List.mem_cons_self _ _
          · exact List.mem_cons_of_mem _ (ih rest x hx')

theorem stripBrackets_subset (l : List Char) : ∀ x ∈ stripBrackets l, x ∈ l :=
  stripBracketsF_subset l.length l

theorem stripBracketsF_id :
    ∀ (f : Nat) (l : List Char), '(' ∉ l → '[' ∉ l → stripBracketsF f l = l := by
  intro f
  induction f with
  | zero => intro l _ _; rfl
  | succ f ih =>
    intro l hp hb
    cases l with
    | nil => exact stripBracketsF_nil _
    | cons c rest =>
      have hcp : c ≠ '(' := fun he => hp (he ▸ List.mem_cons_self c rest)
      have hcb : c ≠ '[' := fun he => hb (he ▸ List.mem_cons_self c rest)
      rw [stripBracketsF_cons_other f c rest hcp hcb,
        ih rest (fun hm => hp (List.mem_cons_of_mem c hm))
          (fun hm => hb (List.mem_cons_of_mem c hm))]

theorem stripBrackets_id (l : List Char) (hp : '(' ∉ l) (hb : '[' ∉ l) :
    stripBrackets l = l :=
  stripBracketsF_id l.length l hp hb

/-- C4: bracket stripping removes, for each opening delimiter, exactly the
shortest span ending at the first matching closing delimiter; an opener with
no closer consumes nothing, and other characters pass through; in particular
`"Song (A) (B)"` normalizes to `"song"`. -/
theorem normalizeTitle_bracket_removal :
    (∀ mid post : List Char, ')' ∉ mid →
      stripBrackets ('(' :: mid ++ ')' :: post) = stripBrackets post) ∧
    (∀ mid post : List Char, ']' ∉ mid →
      stripBrackets ('[' :: mid ++ ']' :: post) = stripBrackets post) ∧
    (∀ rest : List Char, ')' ∉ rest →
      stripBrackets ('(' :: rest) = '(' :: stripBrackets rest) ∧
    (∀ rest : List Char, ']' ∉ rest →
      stripBrackets ('[' :: rest) = '[' :: stripBrackets rest) ∧
    (∀ (c : Char) (rest : List Char), c ≠ '(' → c ≠ '[' →
      stripBrackets (c :: rest) = c :: stripBrackets rest) ∧
    normalizeTitle ("Song (A) (B)".toList) = ("song".toList) := by
  refine ⟨?_, ?_, ?_, ?_, stripBrackets_cons_other, by decide⟩
  · intro mid post h
    exact stripBrackets_cons_paren_some (dropThroughFirst_append post h)
  · intro mid post h
    exact stripBrackets_cons_bracket_some (dropThroughFirst_append post h)
  · intro rest h
    exact stripBrackets_cons_paren_none (dropThroughFirst_eq_none h)
  · intro rest h
    exact stripBrackets_cons_bracket_none (dropThroughFirst_eq_none h)

theorem normalizeTitle_bracket_removal_witness :
    (')' ∉ (['a'] : List Char)) ∧
    stripBrackets ('(' :: ['a'] ++ ')' :: ['b']) = stripBrackets ['b'] :=
  ⟨by decide, normalizeTitle_bracket_removal.1 ['a'] ['b'] (by decide)⟩

end Resonate
namespace Resonate

theorem collapseWs_nil : collapseWs [] = [] := rfl

theorem collapseWs_singleton (c : Char) :
    collapseWs [c] = if isJsWhitespace c then [' '] else [c] := rfl

theorem collapseWs_cons₂ (c d : Char) (rest : List Char) :
    collapseWs (c :: d :: rest) =
      if isJsWhitespace c then
        if isJsWhitespace d then collapseWs (d :: rest)
        else ' ' :: collapseWs (d :: rest)
      else c :: collapseWs (d :: rest) := rfl

theorem collapseWs_head? :
    ∀ (rest : List Char) (c : Char),
      (collapseWs (c :: rest)).head? = some (if isJsWhitespace c then ' ' else c) := by
  intro rest
  induction rest with
  | nil =>
    intro c
    by_cases hc : isJsWhitespace c <;> simp [collapseWs_singleton, hc]
  | cons d rest ih =>
    intro c
    by_cases hc : isJsWhitespace c <;> by_cases hd : isJsWhitespace d <;>
      simp [collapseWs_cons₂, hc, hd, ih d]

theorem collapseWs_mem :
    ∀ l : List Char, ∀ x ∈ collapseWs l,
      x = ' ' ∨ (x ∈ l ∧ isJsWhitespace x = false) := by
  intro l
  induction l using collapseWs.induct with
  | case1 => intro x hx; exact absurd hx (List.not_mem_nil x)
  | case2 c hc =>
    intro x hx
    rw [collapseWs_singleton, if_pos hc] at hx
    left
    simpa using hx
  | case3 c hc =>
    intro x hx
    rw [collapseWs_singleton, if_neg hc] at hx
    right
    refine ⟨hx, ?_⟩
    rcases List.mem_singleton.mp hx with rfl
    exact Bool.not_eq_true _ ▸ (by simpa using hc)
  | case4 c d rest hc hd ih =>
    intro x hx
    rw [collapseWs_cons₂, if_pos hc, if_pos hd] at hx
    rcases ih x hx with h | ⟨hm, hw⟩
    · left; exact h
    · right; exact ⟨List.mem_cons_of_mem c hm, hw⟩
  | case5 c d rest hc hd ih =>
    intro x hx
    rw [collapseWs_cons₂, if_pos hc, if_neg hd] at hx
    rcases List.mem_cons.mp hx with rfl | hx'
    · left; rfl
    · rcases ih x hx' with h | ⟨hm, hw⟩
      · left; exact h
      · right; exact ⟨List.mem_cons_of_mem c hm, hw⟩
  | case6 c d rest hc ih =>
    intro x hx
    rw [collapseWs_cons₂, if_neg hc] at hx
    rcases List.mem_cons.mp hx with rfl | hx'
    · right
      exact ⟨List.mem_cons_self x _, by simpa using hc⟩
    · rcases ih x hx' with h | ⟨hm, hw⟩
      · left; exact h
      · right; exact ⟨List.mem_cons_of_mem c hm, hw⟩

theorem collapseWs_chain' (l : List Char) :
    List.Chain' (fun u v => ¬(isJsWhitespace u = true ∧ isJsWhitespace v = true))
      (collapseWs l) := by
  induction l using collapseWs.induct with
  | case1 => simp [collapseWs_nil]
  | case2 c hc => rw [collapseWs_singleton, if_pos hc]; exact List.chain'_singleton _
  | case3 c hc => rw [collapseWs_singleton, if_neg hc]; exact List.chain'_singleton _
  | case4 c d rest hc hd ih => rw [collapseWs_cons₂, if_pos hc, if_pos hd]; exact ih
  | case5 c d rest hc hd ih =>
    rw [collapseWs_cons₂, if_pos hc, if_neg hd]
    rw [List.chain'_cons']
    refine ⟨?_, ih⟩
    intro y hy
    rw [collapseWs_head? rest d, if_neg hd] at hy
    rcases Option.mem_some_iff.mp hy with rfl
    intro hcon
    exact hd hcon.2
  | case6 c d rest hc ih =>
    rw [collapseWs_cons₂, if_neg hc]
    rw [List.chain'_cons']
    exact ⟨fun y _ hcon => hc hcon.1, ih⟩

theorem collapseWs_eq_self :
    ∀ l : List Char,
      List.Chain' (fun u v => ¬(isJsWhitespace u = true ∧ isJsWhitespace v = true)) l →
      (∀ x ∈ l, isJsWhitespace x = true → x = ' ') → collapseWs l = l := by
  intro l
  induction l using collapseWs.induct with
  | case1 => intro _ _; rfl
  | case2 c hc =>
    intro _ hch
    rw [collapseWs_singleton, if_pos hc, hch c (List.mem_singleton_self c) hc]
  | case3 c hc =>
    intro _ _
    rw [collapseWs_singleton, if_neg hc]
  | case4 c d rest hc hd ih =>
    intro hchain _
    have := (List.chain'_cons'.mp hchain).1 d (by simp)
    exact absurd ⟨hc, hd⟩ this
  | case5 c d rest hc hd ih =>
    intro hchain hch
    rw [collapseWs_cons₂, if_pos hc, if_neg hd]
    rw [ih (List.chain'_cons'.mp hchain).2
      (fun x hx hw => hch x (List.mem_cons_of_mem c hx) hw)]
    rw [hch c (List.mem_cons_self c _) hc]
  | case6 c d rest hc ih =>
    intro hchain hch
    rw [collapseWs_cons₂, if_neg hc]
    rw [ih (List.chain'_cons'.mp hchain).2
      (fun x hx hw => hch x (List.mem_cons_of_mem c hx) hw)]

end Resonate
namespace Resonate

theorem trimWs_eq (l : List Char) :
    trimWs l = List.rdropWhile isJsWhitespace (l.dropWhile isJsWhitespace) := rfl

theorem trimWs_within (l : List Char) : trimWs l <:+: l := by
  rw [trimWs_eq]
  exact (List.rdropWhile_prefix _ _).isInfix.trans
    (List.dropWhile_suffix _).isInfix

theorem trimWs_head?_not_ws (l : List Char) :
    ∀ x, (trimWs l).head? = some x → isJsWhitespace x = false := by
  intro x hx
  rw [trimWs_eq] at hx
  obtain ⟨t, ht⟩ := List.rdropWhile_prefix isJsWhitespace (l.dropWhile isJsWhitespace)
  have hd : (l.dropWhile isJsWhitespace).head? = some x := by
    rw [← ht, List.head?_append, hx]
    rfl
  have hdne : l.dropWhile isJsWhitespace ≠ [] := by
    intro h0
    rw [h0] at hd
    exact Option.noConfusion hd
  have hhead := List.head?_eq_head hdne
  rw [hd] at hhead
  have hx' : x = (l.dropWhile isJsWhitespace).head hdne := Option.some.inj hhead
  rw [hx']
  exact List.head_dropWhile_not isJsWhitespace l hdne

theorem trimWs_getLast?_not_ws (l : List Char) :
    ∀ x, (trimWs l).getLast? = some x → isJsWhitespace x = false := by
  intro x hx
  rw [trimWs_eq] at hx
  by_cases hne : List.rdropWhile isJsWhitespace (l.dropWhile isJsWhitespace) = []
  · rw [hne] at hx
    exact absurd hx (by simp)
  · have hlast := List.getLast?_eq_getLast _ hne
    rw [hx] at hlast
    have hx' : x = (List.rdropWhile isJsWhitespace
        (l.dropWhile isJsWhitespace)).getLast hne := Option.some.inj hlast
    rw [hx']
    have hnot := List.rdropWhile_last_not isJsWhitespace
      (l.dropWhile isJsWhitespace) hne
    revert hnot
    cases isJsWhitespace ((List.rdropWhile isJsWhitespace
        (l.dropWhile isJsWhitespace)).getLast hne) with
    | false => intro _; rfl
    | true => intro hnot; exact absurd rfl hnot

end Resonate
namespace Resonate

theorem normalizeTitle_mem_collapse {s : List Char} {c : Char}
    (hc : c ∈ normalizeTitle s) :
    c ∈ collapseWs (List.filter keepChar (stripBrackets (s.map Char.toLower))) :=
  (trimWs_within _).subset hc

theorem normalizeTitle_chars (s : List Char) :
    ∀ c ∈ normalizeTitle s,
      ('a' ≤ c ∧ c ≤ 'z') ∨ ('0' ≤ c ∧ c ≤ '9') ∨ c = ' ' := by
  intro c hc
  rcases collapseWs_mem _ c (normalizeTitle_mem_collapse hc) with h | ⟨hm, hw⟩
  · right; right; exact h
  · have hk : keepChar c = true := (List.mem_filter.mp hm).2
    simp only [keepChar, hw, Bool.or_false, Bool.or_eq_true, Bool.and_eq_true,
      decide_eq_true_eq] at hk
    rcases hk with h1 | h2
    · left; exact h1
    · right; left; exact h2

theorem normalizeTitle_ws_eq_space (s : List Char) :
    ∀ c ∈ normalizeTitle s, isJsWhitespace c = true → c = ' ' := by
  intro c hc hw
  rcases collapseWs_mem _ c (normalizeTitle_mem_collapse hc) with h | ⟨_, hw'⟩
  · exact h
  · rw [hw] at hw'
    exact absurd hw' (by decide)

theorem normalizeTitle_head?_not_ws (s : List Char) :
    ∀ x, (normalizeTitle s).head? = some x → isJsWhitespace x = false :=
  trimWs_head?_not_ws _

theorem normalizeTitle_getLast?_not_ws (s : List Char) :
    ∀ x, (normalizeTitle s).getLast? = some x → isJsWhitespace x = false :=
  trimWs_getLast?_not_ws _

theorem normalizeTitle_chain' (s : List Char) :
    List.Chain' (fun u v => ¬(isJsWhitespace u = true ∧ isJsWhitespace v = true))
      (normalizeTitle s) :=
  List.Chain'.infix (collapseWs_chain' _) (trimWs_within _)

theorem normalizeTitle_of_all_dropped (s : List Char)
    (h : ∀ c ∈ s, keepChar (Char.toLower c) = false) : normalizeTitle s = [] := by
  unfold normalizeTitle
  have hfil : List.filter keepChar (stripBrackets (s.map Char.toLower)) = [] := by
    rw [List.filter_eq_nil_iff]
    intro a ha
    have ham := stripBrackets_subset _ a ha
    obtain ⟨c, hcs, rfl⟩ := List.mem_map.mp ham
    rw [h c hcs]
    exact Bool.false_ne_true
  rw [hfil]
  rfl

end Resonate
namespace Resonate

/-- C5: the normalized string holds only lowercase ASCII letters, digits and
single (non-leading, non-trailing, non-doubled) spaces, no bracket
characters survive, and an input whose characters are all dropped by the
filter (punctuation and brackets) normalizes to the empty string. -/
theorem normalizeTitle_output_invariant (s : List Char) :
    (∀ c ∈ normalizeTitle s,
      ('a' ≤ c ∧ c ≤ 'z') ∨ ('0' ≤ c ∧ c ≤ '9') ∨ c = ' ') ∧
    (normalizeTitle s).head? ≠ some ' ' ∧
    (normalizeTitle s).getLast? ≠ some ' ' ∧
    List.Chain' (fun u v => ¬(u = ' ' ∧ v = ' ')) (normalizeTitle s) ∧
    (∀ c ∈ normalizeTitle s, c ≠ '(' ∧ c ≠ ')' ∧ c ≠ '[' ∧ c ≠ ']') ∧
    ((∀ c ∈ s, keepChar (Char.toLower c) = false) → normalizeTitle s = []) := by
  refine ⟨normalizeTitle_chars s, ?_, ?_, ?_, ?_, normalizeTitle_of_all_dropped s⟩
  · intro hx
    exact absurd (normalizeTitle_head?_not_ws s ' ' hx) (by decide)
  · intro hx
    exact absurd (normalizeTitle_getLast?_not_ws s ' ' hx) (by decide)
  · refine (normalizeTitle_chain' s).imp ?_
    intro u v h hcon
    exact h ⟨by rw [hcon.1]; decide, by rw [hcon.2]; decide⟩
  · intro c hc
    have h := normalizeTitle_chars s c hc
    refine ⟨?_, ?_, ?_, ?_⟩ <;> · rintro rfl; revert h; decide

theorem normalizeTitle_output_invariant_witness :
    (∀ c ∈ ("([)]!,-".toList), keepChar (Char.toLower c) = false) ∧
    normalizeTitle ("([)]!,-".toList) = [] :=
  ⟨by decide,
    (normalizeTitle_output_invariant ("([)]!,-".toList)).2.2.2.2.2 (by decide)⟩

end Resonate
namespace Resonate

theorem toLower_fix {c : Char}
    (h : ('a' ≤ c ∧ c ≤ 'z') ∨ ('0' ≤ c ∧ c ≤ '9') ∨ c = ' ') :
    c.toLower = c := by
  rcases h with ⟨h1, h2⟩ | ⟨h1, h2⟩ | rfl
  · have n1 : 97 ≤ c.toNat := by rw [Char.le_def] at h1; exact h1
    simp only [Char.toLower]
    rw [if_neg (by omega)]
  · have n2 : c.toNat ≤ 57 := by rw [Char.le_def] at h2; exact h2
    simp only [Char.toLower]
    rw [if_neg (by omega)]
  · decide

theorem keepChar_of_chars {c : Char}
    (h : ('a' ≤ c ∧ c ≤ 'z') ∨ ('0' ≤ c ∧ c ≤ '9') ∨ c = ' ') :
    keepChar c = true := by
  rcases h with ⟨h1, h2⟩ | ⟨h1, h2⟩ | rfl
  · unfold keepChar
    rw [decide_eq_true h1, decide_eq_true h2]
    rfl
  · unfold keepChar
    rw [decide_eq_true h1, decide_eq_true h2]
    simp
  · decide

theorem normalizeTitle_idem (s : List Char) :
    normalizeTitle (normalizeTitle s) = normalizeTitle s := by
  have hchars := normalizeTitle_chars s
  have hmap : (normalizeTitle s).map Char.toLower = normalizeTitle s := by
    rw [List.map_congr_left (fun x hx => toLower_fix (hchars x hx))]
    exact List.map_id _
  have hp : '(' ∉ normalizeTitle s := by
    intro hmem
    have h := hchars '(' hmem
    revert h
    decide
  have hb : '[' ∉ normalizeTitle s := by
    intro hmem
    have h := hchars '[' hmem
    revert h
    decide
  have hstrip : stripBrackets (normalizeTitle s) = normalizeTitle s :=
    stripBrackets_id _ hp hb
  have hfil : List.filter keepChar (normalizeTitle s) = normalizeTitle s :=
    List.filter_eq_self.mpr (fun a ha => keepChar_of_chars (hchars a ha))
  have hcol : collapseWs (normalizeTitle s) = normalizeTitle s :=
    collapseWs_eq_self _ (normalizeTitle_chain' s) (normalizeTitle_ws_eq_space s)
  have h1 : (normalizeTitle s).dropWhile isJsWhitespace = normalizeTitle s := by
    cases hre : normalizeTitle s with
    | nil => rfl
    | cons x t =>
      rw [List.dropWhile_cons]
      have hx : isJsWhitespace x = false := by
        apply normalizeTitle_head?_not_ws s x
        rw [hre]
        rfl
      rw [hx]
      simp
  have h2 : (normalizeTitle s).reverse.dropWhile isJsWhitespace =
      (normalizeTitle s).reverse := by
    cases hre : (normalizeTitle s).reverse with
    | nil => rfl
    | cons x t =>
      rw [List.dropWhile_cons]
      have hx : isJsWhitespace x = false := by
        apply normalizeTitle_getLast?_not_ws s x
        rw [← List.head?_reverse, hre]
        rfl
      rw [hx]
      simp
  have htrim : trimWs (normalizeTitle s) = normalizeTitle s := by
    unfold trimWs
    rw [h1, h2, List.reverse_reverse]
  show trimWs (collapseWs (List.filter keepChar
    (stripBrackets ((normalizeTitle s).map Char.toLower)))) = normalizeTitle s
  rw [hmap, hstrip, hfil, hcol, htrim]

theorem similarity_congr_left {a' a : List Char} (b : List Char)
    (h : normalizeTitle a' = normalizeTitle a) :
    similarity a' b = similarity a b := by
  simp only [similarity, h]

/-- C9: `normalizeTitle` is idempotent, so replacing either raw argument of
`similarity` by its own normalized form does not change the similarity. -/
theorem normalizeTitle_idempotent (s : List Char) :
    normalizeTitle (normalizeTitle s) = normalizeTitle s ∧
    ∀ b : List Char,
      similarity (normalizeTitle s) b = similarity s b ∧
      similarity b (normalizeTitle s) = similarity b s := by
  refine ⟨normalizeTitle_idem s, fun b => ⟨?_, ?_⟩⟩
  · exact similarity_congr_left b (normalizeTitle_idem s)
  · rw [similarity_comm, similarity_congr_left b (normalizeTitle_idem s),
      similarity_comm]

end Resonate
